import Mathlib

/-!
# Verification of range-v3's bounded advance and zip view

Shallow embedding of `include/range/v3/detail/advance_bounded.hpp` and
`include/range/v3/view/zip.hpp`.

Iterators are modelled as integer positions: `++it` is `it + 1`, `--it` is
`it - 1`, `it != e` is `it ≠ e`, and for random-access iterators `e - it` is
integer subtraction.  The difference type `Diff` is modelled as `Int`.
A fail-fast assertion (`RANGES_ASSERT`, active in debug builds) is modelled
by an `Option` result: `none` means the assertion fired.
-/

namespace RangeV3

/-- `advance_bounded_::fwd(it, n, end, std::input_iterator_tag)`:
`while(n > 0 && it != end) { ++it; --n; } return n;`.
Returns the final iterator together with the returned remainder. -/
def fwd_input (it n e : Int) : Int × Int :=
  if h : 0 < n ∧ it ≠ e then fwd_input (it + 1) (n - 1) e else (it, n)
termination_by n.toNat
decreasing_by
  simp_wf
  omega

/-- `advance_bounded_::fwd(it, n, end, std::random_access_iterator_tag)`:
`auto const room = end - it; if(room < n) { it = end; n -= room; }
else { it += n; n = 0; } return n;`. -/
def fwd_ra (it n e : Int) : Int × Int :=
  let room := e - it
  if room < n then (e, n - room) else (it + n, 0)

/-- `advance_bounded_::back(it, n, begin, std::bidirectional_iterator_tag)`:
`while(n < 0 && it != begin) { --it; ++n; } return n;`. -/
def back_bidi (it n b : Int) : Int × Int :=
  if h : n < 0 ∧ it ≠ b then back_bidi (it - 1) (n + 1) b else (it, n)
termination_by (-n).toNat
decreasing_by
  simp_wf
  omega

/-- `advance_bounded_::back(it, n, begin, std::random_access_iterator_tag)`:
`auto const room = -(it - begin); if(n < room) { it = begin; n -= room; }
else { it += n; n = 0; } return n;`. -/
def back_ra (it n b : Int) : Int × Int :=
  let room := -(it - b)
  if n < room then (b, n - room) else (it + n, 0)

/-- `advance_bounded_::operator()(it, n, bound)` for a single-pass (input
tier) iterator: `if(0 < n) return fwd(..., input_iterator_tag{}); else
return back(..., input_iterator_tag{});`.  The input-tag `back` overload is
`RANGES_ASSERT(false); return n;`, so every dispatch with `n ≤ 0` hits the
assertion: the result is `none`. -/
def advance_bounded_input (it n bound : Int) : Option (Int × Int) :=
  if 0 < n then some (fwd_input it n bound) else none

/-- `advance_bounded_::operator()(it, n, bound)` for a bidirectional
iterator: forward requests use the one-step input-tag `fwd` overload (a
bidirectional tag converts to `input_iterator_tag`), backward (and zero)
requests use the bidirectional-tag `back` overload. -/
def advance_bounded_bidi (it n bound : Int) : Int × Int :=
  if 0 < n then fwd_input it n bound else back_bidi it n bound

/-- `advance_bounded_::operator()(it, n, bound)` for a random-access
iterator: both directions use the O(1) random-access overloads. -/
def advance_bounded_ra (it n bound : Int) : Int × Int :=
  if 0 < n then fwd_ra it n bound else back_ra it n bound

/-- Reference loop, forward direction, following the spec's words: steps one
position at a time while comparing against `bound`, consuming the count. -/
def ref_fwd (it n bound : Int) : Int × Int :=
  if h : 0 < n ∧ it ≠ bound then ref_fwd (it + 1) (n - 1) bound else (it, n)
termination_by n.toNat
decreasing_by
  simp_wf
  omega

/-- Reference loop, backward direction, following the spec's words: steps one
position at a time while comparing against `bound`, consuming the count. -/
def ref_back (it n bound : Int) : Int × Int :=
  if h : n < 0 ∧ it ≠ bound then ref_back (it - 1) (n + 1) bound else (it, n)
termination_by (-n).toNat
decreasing_by
  simp_wf
  omega

/-- The naive one-step-at-a-time reference for Bounded Advance of spec §8
("Random-access O(1) equivalence"): dispatches on the sign of `n` like
`advance_bounded_::operator()` but always moves one step at a time. -/
def naive_bounded_advance (it n bound : Int) : Int × Int :=
  if 0 < n then ref_fwd it n bound else ref_back it n bound

/-!
## The zip view (`include/range/v3/view/zip.hpp`)

A composite position `its_` is the tuple of component iterators.  For
arity-generic claims the tuple is modelled as a `List Int` of component
positions (`Int × List Int` when the operation uses `std::get<0>`, which
requires at least one component); for element-level claims the variadic
template is instantiated at two ranges, each a Lean `List`, with a
component iterator modelled as the index into its list.
-/

/-- `basic_iterator::equal`:
`tuple_foldl(tuple_transform(its_, that.its_, detail::equal_to), false,
[](bool a, bool b) { return a || b; })` — the OR-fold of the component-wise
equality results. -/
def zip_equal (xs ys : List Int) : Bool :=
  (List.zipWith (fun t u => t == u) xs ys).foldl (fun a b => a || b) false

/-- `detail::min_`: `t < u ? t : u`. -/
def min_ (t u : Int) : Int := if t < u then t else u

/-- `detail::max_`: `t < u ? u : t`. -/
def max_ (t u : Int) : Int := if t < u then u else t

/-- `std::numeric_limits<difference_type>::max()` with the 64-bit
`difference_type` of the model. -/
def difference_max : Int := 2 ^ 63 - 1

/-- `std::numeric_limits<difference_type>::min()` with the 64-bit
`difference_type` of the model. -/
def difference_min : Int := -(2 ^ 63)

/-- `tuple_transform(its_, that.its_, detail::distance_to)` where
`detail::distance_to(t, u)` is `u - t`: the list of per-component signed
distances from `a` to `b`.  The composite position is `(head, tail)` since
`distance_to` reads `std::get<0>`. -/
def zip_distances (a b : Int × List Int) : List Int :=
  (b.1 - a.1) :: List.zipWith (fun t u => u - t) a.2 b.2

/-- `basic_iterator::distance_to`:
`if(0 < std::get<0>(that.its_) - std::get<0>(its_))` fold the transformed
distances with `detail::min_` from `numeric_limits::max()`, else fold them
with `detail::max_` from `numeric_limits::min()`. -/
def zip_distance_to (a b : Int × List Int) : Int :=
  if 0 < b.1 - a.1 then (zip_distances a b).foldl min_ difference_max
  else (zip_distances a b).foldl max_ difference_min

/-!
### The zip view at arity two, with elements

`zip_range_view<R1, R2>` for two ranges modelled as `List α` and `List β`;
a component iterator is its index, so `ranges::begin` is index `0` and
`ranges::end` is the list's length.
-/

/-- `basic_iterator(rng, begin_tag)`: every component at `ranges::begin`. -/
def zip2_begin : Nat × Nat := (0, 0)

/-- `basic_iterator(rng, end_tag)`: every component at `ranges::end`. -/
def zip2_end (r1 : List α) (r2 : List β) : Nat × Nat := (r1.length, r2.length)

/-- `basic_iterator::equal` at arity two: the OR-fold
`false || (p₁ == q₁) || (p₂ == q₂)`. -/
def zip2_equal (p q : Nat × Nat) : Bool := (p.1 == q.1) || (p.2 == q.2)

/-- `basic_iterator::dereference`: `tuple_transform(its_, detail::deref)`.
Dereferencing an out-of-range component iterator is undefined behaviour in
the source; the model returns `none` there. -/
def zip2_dereference (r1 : List α) (r2 : List β) (p : Nat × Nat) :
    Option (α × β) :=
  match r1.get? p.1, r2.get? p.2 with
  | some x, some y => some (x, y)
  | _, _ => none

/-- `basic_iterator::increment`: `RANGES_ASSERT(*this != rng_->end());
tuple_for_each(its_, detail::inc);` — `none` when the assertion (composite
position equal, by `zip2_equal`, to the composite end) fires. -/
def zip2_increment (r1 : List α) (r2 : List β) (p : Nat × Nat) :
    Option (Nat × Nat) :=
  if zip2_equal p (zip2_end r1 r2) then none else some (p.1 + 1, p.2 + 1)

/-- `basic_iterator::decrement`: `RANGES_ASSERT(*this != rng_->begin());
tuple_for_each(its_, detail::dec);` — `none` when the assertion fires. -/
def zip2_decrement (r1 : List α) (r2 : List β) (p : Nat × Nat) :
    Option (Nat × Nat) :=
  if zip2_equal p zip2_begin then none else some (p.1 - 1, p.2 - 1)

/-!
### Iterator categories

`basic_iterator` declares its category as
`typename std::common_type<range_category_t<InputRanges>...>::type`.
The standard iterator tags form one inheritance chain
(`random_access → bidirectional → forward → input`), and `std::common_type`
of two class types related by inheritance is the base class, so the
common type of a pack of tags is the tag lowest in the chain. -/
inductive iterator_category where
  | input_tag
  | forward_tag
  | bidirectional_tag
  | random_access_tag
deriving DecidableEq

/-- Height of a tag in the inheritance chain (base classes are lower). -/
def category_rank : iterator_category → Nat
  | .input_tag => 0
  | .forward_tag => 1
  | .bidirectional_tag => 2
  | .random_access_tag => 3

/-- `std::common_type<A, B>::type` for two iterator tags on the chain: the
more-derived tag converts to the more-basic one, so the common type is the
tag of smaller rank. -/
def common_category (a b : iterator_category) : iterator_category :=
  if category_rank a ≤ category_rank b then a else b

/-- `std::common_type<C, Cs...>::type`: left fold of the binary
`common_type` over the pack of component categories (nonempty, as
`zip_range_view` needs at least one range for its iterator's category). -/
def zip_category (c : iterator_category) (cs : List iterator_category) :
    iterator_category :=
  cs.foldl common_category c

/-- Modelled from the spec: `ranges::iterator_facade` (under
`include/range/v3/utility/iterator_facade.hpp`, not part of the two staged
files) synthesizes the random-access-only operations (offset arithmetic,
`distance_to`) only when the declared category is the random-access tag;
for lower tiers the operations are absent, so using them is rejected at
compile time. -/
def has_random_access_ops (c : iterator_category) : Bool :=
  c == .random_access_tag

/-!
## Helper lemmas: closed forms of the one-step loops
-/

/-- Closed form of the forward one-step loop: with a nonnegative count and
the bound ahead, it stops at the bound (returning the unconsumed count) or
exhausts the count. -/
theorem fwd_input_eq : ∀ p n e : Int, 0 ≤ n → p ≤ e →
    fwd_input p n e = if e - p ≤ n then (e, n - (e - p)) else (p + n, 0) := by
  intro p n e
  induction p, n, e using fwd_input.induct with
  | case1 p n e h ih =>
    obtain ⟨h1, h2⟩ := h
    intro h0 hpe
    rw [fwd_input, dif_pos ⟨h1, h2⟩]
    rw [ih (by omega) (by omega)]
    split_ifs <;> simp only [Prod.mk.injEq, true_and, and_true] <;> omega
  | case2 p n e h =>
    intro h0 hpe
    rw [fwd_input, dif_neg h]
    rcases not_and_or.mp h with h | h
    · split_ifs <;> simp only [Prod.mk.injEq, true_and, and_true] <;> omega
    · rw [not_not] at h
      subst h
      split_ifs <;> simp only [Prod.mk.injEq, true_and, and_true] <;> omega

/-- Closed form of the backward one-step loop: with a nonpositive count and
the bound behind, it stops at the bound or exhausts the count. -/
theorem back_bidi_eq : ∀ p n b : Int, n ≤ 0 → b ≤ p →
    back_bidi p n b = if n ≤ b - p then (b, n - (b - p)) else (p + n, 0) := by
  intro p n b
  induction p, n, b using back_bidi.induct with
  | case1 p n b h ih =>
    obtain ⟨h1, h2⟩ := h
    intro h0 hbp
    rw [back_bidi, dif_pos ⟨h1, h2⟩]
    rw [ih (by omega) (by omega)]
    split_ifs <;> simp only [Prod.mk.injEq, true_and, and_true] <;> omega
  | case2 p n b h =>
    intro h0 hbp
    rw [back_bidi, dif_neg h]
    rcases not_and_or.mp h with h | h
    · split_ifs <;> simp only [Prod.mk.injEq, true_and, and_true] <;> omega
    · rw [not_not] at h
      subst h
      split_ifs <;> simp only [Prod.mk.injEq, true_and, and_true] <;> omega

/-- The spec's forward reference loop has the same closed form. -/
theorem ref_fwd_eq : ∀ p n e : Int, 0 ≤ n → p ≤ e →
    ref_fwd p n e = if e - p ≤ n then (e, n - (e - p)) else (p + n, 0) := by
  intro p n e
  induction p, n, e using ref_fwd.induct with
  | case1 p n e h ih =>
    obtain ⟨h1, h2⟩ := h
    intro h0 hpe
    rw [ref_fwd, dif_pos ⟨h1, h2⟩]
    rw [ih (by omega) (by omega)]
    split_ifs <;> simp only [Prod.mk.injEq, true_and, and_true] <;> omega
  | case2 p n e h =>
    intro h0 hpe
    rw [ref_fwd, dif_neg h]
    rcases not_and_or.mp h with h | h
    · split_ifs <;> simp only [Prod.mk.injEq, true_and, and_true] <;> omega
    · rw [not_not] at h
      subst h
      split_ifs <;> simp only [Prod.mk.injEq, true_and, and_true] <;> omega

/-- The spec's backward reference loop has the same closed form. -/
theorem ref_back_eq : ∀ p n b : Int, n ≤ 0 → b ≤ p →
    ref_back p n b = if n ≤ b - p then (b, n - (b - p)) else (p + n, 0) := by
  intro p n b
  induction p, n, b using ref_back.induct with
  | case1 p n b h ih =>
    obtain ⟨h1, h2⟩ := h
    intro h0 hbp
    rw [ref_back, dif_pos ⟨h1, h2⟩]
    rw [ih (by omega) (by omega)]
    split_ifs <;> simp only [Prod.mk.injEq, true_and, and_true] <;> omega
  | case2 p n b h =>
    intro h0 hbp
    rw [ref_back, dif_neg h]
    rcases not_and_or.mp h with h | h
    · split_ifs <;> simp only [Prod.mk.injEq, true_and, and_true] <;> omega
    · rw [not_not] at h
      subst h
      split_ifs <;> simp only [Prod.mk.injEq, true_and, and_true] <;> omega

/-- Closed form of the O(1) forward jump under the same hypotheses. -/
theorem fwd_ra_eq (p n e : Int) (h0 : 0 ≤ n) (hpe : p ≤ e) :
    fwd_ra p n e = if e - p ≤ n then (e, n - (e - p)) else (p + n, 0) := by
  simp only [fwd_ra]
  split_ifs <;> simp only [Prod.mk.injEq, true_and, and_true] <;> omega

/-- Closed form of the O(1) backward jump under the same hypotheses. -/
theorem back_ra_eq (p n b : Int) (h0 : n ≤ 0) (hbp : b ≤ p) :
    back_ra p n b = if n ≤ b - p then (b, n - (b - p)) else (p + n, 0) := by
  simp only [back_ra]
  split_ifs <;> simp only [Prod.mk.injEq, true_and, and_true] <;> omega

/-!
## Claims about Bounded Advance
-/

/-- C2 (code evaluated at the failing inputs): the zero-count call does not
return 0 leaving the position unchanged on every tier.  `operator()`
dispatches `n == 0` to `back`: for a single-pass (input-tier) position the
input-tag `back` overload is `RANGES_ASSERT(false)`, so
`bounded_advance(p, 0, bound)` fires the assertion; and for a random-access
position with the bound strictly ahead (`p = 0`, `bound = 1`), the
random-access `back` overload moves `p` forward to the bound and returns
the negative remainder `-1` instead of 0. -/
theorem zero_count_not_noop :
    advance_bounded_input 0 0 5 = none ∧ advance_bounded_ra 0 0 1 = (1, -1) := by
  decide

/-- C3: for every position `p`, count `n`, and boundary `bound` reachable
from `p` in the direction of `n` within `|n|` or fewer steps,
`bounded_advance(p, n, bound)` stops exactly at `bound`, so the steps taken
equal `n - r` where `r` is the returned remainder, the position never moves
strictly past `bound`, and when `p = bound` with `n ≠ 0` the call returns
`n` with `p` unmoved.  Forward requests cover all three tiers, backward
requests the bidirectional and random-access tiers. -/
theorem bounded_advance_conservation (p n bound : Int) :
    (0 < n → p ≤ bound → bound ≤ p + n →
      advance_bounded_input p n bound = some (bound, n - (bound - p)) ∧
      advance_bounded_bidi p n bound = (bound, n - (bound - p)) ∧
      advance_bounded_ra p n bound = (bound, n - (bound - p)))
  ∧ (n < 0 → p + n ≤ bound → bound ≤ p →
      advance_bounded_bidi p n bound = (bound, n - (bound - p)) ∧
      advance_bounded_ra p n bound = (bound, n - (bound - p)))
  ∧ (n ≠ 0 →
      advance_bounded_bidi p n p = (p, n) ∧
      advance_bounded_ra p n p = (p, n) ∧
      (0 < n → advance_bounded_input p n p = some (p, n))) := by
  refine ⟨?_, ?_, ?_⟩
  · intro h1 h2 h3
    have e1 := fwd_input_eq p n bound (by omega) h2
    have e2 := fwd_ra_eq p n bound (by omega) h2
    rw [if_pos (by omega)] at e1 e2
    refine ⟨?_, ?_, ?_⟩
    · rw [advance_bounded_input, if_pos h1, e1]
    · rw [advance_bounded_bidi, if_pos h1, e1]
    · rw [advance_bounded_ra, if_pos h1, e2]
  · intro h1 h2 h3
    have e1 := back_bidi_eq p n bound (by omega) h3
    have e2 := back_ra_eq p n bound (by omega) h3
    rw [if_pos (by omega)] at e1 e2
    constructor
    · rw [advance_bounded_bidi, if_neg (by omega), e1]
    · rw [advance_bounded_ra, if_neg (by omega), e2]
  · intro h1
    rcases lt_or_gt_of_ne h1 with h | h
    · have e1 := back_bidi_eq p n p (by omega) le_rfl
      have e2 := back_ra_eq p n p (by omega) le_rfl
      rw [if_pos (by omega)] at e1 e2
      simp only [sub_self, sub_zero] at e1 e2
      exact ⟨by rw [advance_bounded_bidi, if_neg (by omega), e1],
             by rw [advance_bounded_ra, if_neg (by omega), e2],
             fun hc => absurd h (by omega)⟩
    · have e1 := fwd_input_eq p n p (by omega) le_rfl
      have e2 := fwd_ra_eq p n p (by omega) le_rfl
      rw [if_pos (by omega)] at e1 e2
      simp only [sub_self, sub_zero] at e1 e2
      exact ⟨by rw [advance_bounded_bidi, if_pos h, e1],
             by rw [advance_bounded_ra, if_pos h, e2],
             fun _ => by rw [advance_bounded_input, if_pos h, e1]⟩

/-- Witness for C3 at concrete inputs: forward `p = 0`, `n = 5`,
`bound = 3` on all tiers, and backward `p = 5`, `n = -3`, `bound = 3` on
the bidirectional and random-access tiers. -/
theorem bounded_advance_conservation_witness :
    advance_bounded_input 0 5 3 = some (3, 2) ∧
    advance_bounded_bidi 0 5 3 = (3, 2) ∧
    advance_bounded_ra 0 5 3 = (3, 2) ∧
    advance_bounded_bidi 5 (-3) 3 = (3, -1) ∧
    advance_bounded_ra 5 (-3) 3 = (3, -1) := by
  have hf := (bounded_advance_conservation 0 5 3).1
    (by norm_num) (by norm_num) (by norm_num)
  have hb := (bounded_advance_conservation 5 (-3) 3).2.1
    (by norm_num) (by norm_num) (by norm_num)
  norm_num at hf hb
  exact ⟨hf.1, hf.2.1, hf.2.2, hb.1, hb.2⟩

/-- C4: for a random-access position, a count `n`, and a bound reachable by
subtraction in the direction of `n`, the O(1) arithmetic path of
`bounded_advance` produces the same final position and the same remainder
as the naive one-step-at-a-time reference loop. -/
theorem random_access_equals_naive (p n bound : Int)
    (hf : 0 < n → p ≤ bound) (hb : n < 0 → bound ≤ p)
    (hz : n = 0 → bound = p) :
    advance_bounded_ra p n bound = naive_bounded_advance p n bound := by
  rcases lt_trichotomy n 0 with h | h | h
  · have hbp := hb h
    rw [advance_bounded_ra, naive_bounded_advance, if_neg (by omega),
      if_neg (by omega), back_ra_eq p n bound (by omega) hbp,
      ref_back_eq p n bound (by omega) hbp]
  · subst h
    have hbp : bound ≤ p := le_of_eq (hz rfl)
    rw [advance_bounded_ra, naive_bounded_advance, if_neg (by omega),
      if_neg (by omega), back_ra_eq p 0 bound le_rfl hbp,
      ref_back_eq p 0 bound le_rfl hbp]
  · have hpb := hf h
    rw [advance_bounded_ra, naive_bounded_advance, if_pos h, if_pos h,
      fwd_ra_eq p n bound (by omega) hpb, ref_fwd_eq p n bound (by omega) hpb]

/-- Witness for C4 at the concrete inputs `p = 0`, `n = 7`, `bound = 4`
(the bound is hit after 4 steps, remainder 3). -/
theorem random_access_equals_naive_witness :
    advance_bounded_ra 0 7 4 = naive_bounded_advance 0 7 4 :=
  random_access_equals_naive 0 7 4 (by omega) (by omega) (by omega)

/-- C7: calling `bounded_advance` with a negative count on a single-pass
(input-tier) position fails fast: `operator()` dispatches to the input-tag
`back` overload, whose body is `RANGES_ASSERT(false)`, modelled as `none`
(it is not a silent no-op returning a value). -/
theorem single_pass_backward_asserts (it n bound : Int) (h : n < 0) :
    advance_bounded_input it n bound = none := by
  rw [advance_bounded_input, if_neg (by omega)]

/-- Witness for C7 at the concrete input `p = 0`, `n = -1`, `bound = 5`. -/
theorem single_pass_backward_asserts_witness :
    advance_bounded_input 0 (-1) 5 = none :=
  single_pass_backward_asserts 0 (-1) 5 (by norm_num)

/-- C10: for a random-access position with `n > 0` and the bound strictly
behind `p`, the room `bound - p` is negative, so the forward overload takes
the `room < n` branch: `p` is assigned `bound` (it moves backward despite
the forward request) and the returned remainder `n - (bound - p)` is
strictly greater than `n`. -/
theorem forward_request_bound_behind (p n bound : Int)
    (hn : 0 < n) (hb : bound < p) :
    advance_bounded_ra p n bound = (bound, n - (bound - p)) ∧
    n < n - (bound - p) := by
  constructor
  · rw [advance_bounded_ra, if_pos hn]
    simp only [fwd_ra]
    rw [if_pos (by omega)]
  · omega

/-- Witness for C10 at the concrete input `p = 5`, `n = 3`, `bound = 2`:
the position jumps backward to 2 and the remainder 6 exceeds 3. -/
theorem forward_request_bound_behind_witness :
    advance_bounded_ra 5 3 2 = (2, 6) ∧ (3 : Int) < 6 := by
  have h := forward_request_bound_behind 5 3 2 (by norm_num) (by norm_num)
  norm_num at h
  exact ⟨h, by norm_num⟩

/-!
## Claims about the zip view
-/

/-- Folding `||` from any accumulator is the accumulator or-ed with the
fold from `false`. -/
theorem foldl_or_eq (l : List Bool) :
    ∀ acc : Bool, l.foldl (fun a b => a || b) acc = (acc || l.any id) := by
  induction l with
  | nil => intro acc; simp
  | cons b t ih => intro acc; simp [ih, Bool.or_assoc]

/-- One step of `basic_iterator::equal`: the OR-fold over a nonempty tuple
is the first component-wise test or-ed with the fold over the rest. -/
theorem zip_equal_cons (x y : Int) (xs ys : List Int) :
    zip_equal (x :: xs) (y :: ys) = ((x == y) || zip_equal xs ys) := by
  simp [zip_equal, foldl_or_eq]

/-- C1: two composite zip positions test equal exactly when at least one
pair of corresponding component positions is equal — an OR-fold of the
component-wise tests, not an AND: `[0, 1]` and `[0, 2]` compare equal
although their second components differ, while positions with no equal
pair (`[1, 3]` and `[2, 4]`) compare unequal. -/
theorem zip_equal_any_pair :
    (∀ xs ys : List Int, zip_equal xs ys = true ↔ ∃ p ∈ xs.zip ys, p.1 = p.2)
    ∧ zip_equal [0, 1] [0, 2] = true ∧ zip_equal [1, 3] [2, 4] = false := by
  refine ⟨?_, by decide, by decide⟩
  intro xs
  induction xs with
  | nil => intro ys; simp [zip_equal]
  | cons x t ih =>
    intro ys
    cases ys with
    | nil => simp [zip_equal]
    | cons y t2 =>
      rw [zip_equal_cons]
      simp [ih t2, Bool.or_eq_true, beq_iff_eq]

/-- `detail::min_` agrees with the order's `min`. -/
theorem min_underscore (t u : Int) : min_ t u = min t u := by
  unfold min_
  rw [min_def]
  split_ifs <;> omega

/-- `detail::max_` agrees with the order's `max`. -/
theorem max_underscore (t u : Int) : max_ t u = max t u := by
  unfold max_
  rw [max_def]
  split_ifs <;> omega

/-- Folding `detail::min_` is folding `min`. -/
theorem foldl_min_underscore (l : List Int) :
    ∀ a : Int, l.foldl min_ a = l.foldl min a := by
  induction l with
  | nil => intro a; rfl
  | cons x t ih => intro a; simp [min_underscore, ih]

/-- Folding `detail::max_` is folding `max`. -/
theorem foldl_max_underscore (l : List Int) :
    ∀ a : Int, l.foldl max_ a = l.foldl max a := by
  induction l with
  | nil => intro a; rfl
  | cons x t ih => intro a; simp [max_underscore, ih]

/-- C5: `basic_iterator::distance_to` — when the signed distance between
the first components is positive, the result is the fold with `min` over
all per-component signed distances; otherwise it is the fold with `max`
over them.  (The numeric-limits seeds drop out as soon as the first
distance fits the difference type.) -/
theorem zip_distance_to_fold (a b : Int × List Int)
    (h1 : difference_min ≤ b.1 - a.1) (h2 : b.1 - a.1 ≤ difference_max) :
    (0 < b.1 - a.1 →
      zip_distance_to a b
        = (List.zipWith (fun t u => u - t) a.2 b.2).foldl min (b.1 - a.1))
    ∧ (¬ 0 < b.1 - a.1 →
      zip_distance_to a b
        = (List.zipWith (fun t u => u - t) a.2 b.2).foldl max (b.1 - a.1)) := by
  constructor
  · intro hpos
    rw [zip_distance_to, if_pos hpos, zip_distances, List.foldl_cons]
    rw [show min_ difference_max (b.1 - a.1) = b.1 - a.1 from by
      rw [min_underscore]; exact min_eq_right h2]
    exact foldl_min_underscore _ _
  · intro hneg
    rw [zip_distance_to, if_neg hneg, zip_distances, List.foldl_cons]
    rw [show max_ difference_min (b.1 - a.1) = b.1 - a.1 from by
      rw [max_underscore]; exact max_eq_right h1]
    exact foldl_max_underscore _ _

/-- Witness for C5 at concrete composite positions: forward from
`(0, [0])` to `(2, [1])` the distances are `[2, 1]` and the min-fold gives
1; backward from `(2, [0])` to `(0, [5])` the distances are `[-2, 5]` and
the max-fold gives 5. -/
theorem zip_distance_to_fold_witness :
    zip_distance_to (0, [0]) (2, [1]) = 1 ∧
    zip_distance_to (2, [0]) (0, [5]) = 5 := by
  have hmin := (zip_distance_to_fold (0, [0]) (2, [1])
    (by decide) (by decide)).1 (by decide)
  have hmax := (zip_distance_to_fold (2, [0]) (0, [5])
    (by decide) (by decide)).2 (by decide)
  constructor
  · rw [hmin]; decide
  · rw [hmax]; decide

/-- C6: zipping the length-3 sequence `[a, b, c]` with the length-5
sequence `[x, y, z, w, v]` and iterating from begin, dereference then
increment yields exactly `(a, x)`, `(b, y)`, `(c, z)`; after the third
increment the composite position equals the composite end (not after the
fifth): at `(3, 3)` the first components already agree with the end
`(3, 5)`, so a fourth increment fails its assertion. -/
theorem zip_shortest_wins :
    zip2_dereference ['a', 'b', 'c'] ['x', 'y', 'z', 'w', 'v'] (0, 0)
      = some ('a', 'x') ∧
    zip2_increment ['a', 'b', 'c'] ['x', 'y', 'z', 'w', 'v'] (0, 0)
      = some (1, 1) ∧
    zip2_dereference ['a', 'b', 'c'] ['x', 'y', 'z', 'w', 'v'] (1, 1)
      = some ('b', 'y') ∧
    zip2_increment ['a', 'b', 'c'] ['x', 'y', 'z', 'w', 'v'] (1, 1)
      = some (2, 2) ∧
    zip2_dereference ['a', 'b', 'c'] ['x', 'y', 'z', 'w', 'v'] (2, 2)
      = some ('c', 'z') ∧
    zip2_increment ['a', 'b', 'c'] ['x', 'y', 'z', 'w', 'v'] (2, 2)
      = some (3, 3) ∧
    zip2_equal (2, 2) (zip2_end ['a', 'b', 'c'] ['x', 'y', 'z', 'w', 'v'])
      = false ∧
    zip2_equal (3, 3) (zip2_end ['a', 'b', 'c'] ['x', 'y', 'z', 'w', 'v'])
      = true ∧
    zip2_increment ['a', 'b', 'c'] ['x', 'y', 'z', 'w', 'v'] (3, 3)
      = none := by
  decide

/-- C8: incrementing a composite zip position first asserts it is not
equal (by the composite `equal`) to the composite end and then advances
every component by exactly one; decrementing asserts it is not equal to
the composite begin and then steps every component back by one.  Under
those preconditions the assertion branch (`none`) is never taken, and when
a precondition fails the assertion fires. -/
theorem zip_increment_decrement (r1 : List α) (r2 : List β) (p : Nat × Nat) :
    (zip2_equal p (zip2_end r1 r2) = false →
      zip2_increment r1 r2 p = some (p.1 + 1, p.2 + 1)) ∧
    (zip2_equal p (zip2_end r1 r2) = true →
      zip2_increment r1 r2 p = none) ∧
    (zip2_equal p zip2_begin = false →
      zip2_decrement r1 r2 p = some (p.1 - 1, p.2 - 1)) ∧
    (zip2_equal p zip2_begin = true →
      zip2_decrement r1 r2 p = none) := by
  refine ⟨?_, ?_, ?_, ?_⟩ <;> intro h <;>
    simp [zip2_increment, zip2_decrement, h]

/-- Witness for C8 over the ranges `['a']` and `['b', 'c']` (composite end
`(1, 2)`): increment succeeds at `(0, 0)` and asserts at `(1, 2)`;
decrement succeeds at `(1, 1)` and asserts at `(0, 2)`. -/
theorem zip_increment_decrement_witness :
    zip2_increment ['a'] ['b', 'c'] (0, 0) = some (1, 1) ∧
    zip2_increment ['a'] ['b', 'c'] (1, 2) = none ∧
    zip2_decrement ['a'] ['b', 'c'] (1, 1) = some (0, 0) ∧
    zip2_decrement ['a'] ['b', 'c'] (0, 2) = none :=
  ⟨(zip_increment_decrement ['a'] ['b', 'c'] (0, 0)).1 (by decide),
   (zip_increment_decrement ['a'] ['b', 'c'] (1, 2)).2.1 (by decide),
   (zip_increment_decrement ['a'] ['b', 'c'] (1, 1)).2.2.1 (by decide),
   (zip_increment_decrement ['a'] ['b', 'c'] (0, 2)).2.2.2 (by decide)⟩

/-- The binary common category is one of its arguments and is, in rank, at
most either argument. -/
theorem common_category_cases (a b : iterator_category) :
    (common_category a b = a ∨ common_category a b = b) ∧
    category_rank (common_category a b) ≤ category_rank a ∧
    category_rank (common_category a b) ≤ category_rank b := by
  unfold common_category
  split_ifs with h
  · exact ⟨Or.inl rfl, le_rfl, h⟩
  · exact ⟨Or.inr rfl, by omega, le_rfl⟩

/-- The folded category of a pack is one of the pack's categories and has
rank at most each of them. -/
theorem zip_category_spec :
    ∀ (cs : List iterator_category) (c : iterator_category),
    (zip_category c cs = c ∨ zip_category c cs ∈ cs) ∧
    category_rank (zip_category c cs) ≤ category_rank c ∧
    ∀ u ∈ cs, category_rank (zip_category c cs) ≤ category_rank u := by
  intro cs
  induction cs with
  | nil =>
    intro c
    exact ⟨Or.inl rfl, le_rfl, by simp⟩
  | cons d ds ih =>
    intro c
    have hcc := common_category_cases c d
    have hih := ih (common_category c d)
    have hz : zip_category c (d :: ds) = zip_category (common_category c d) ds :=
      rfl
    refine ⟨?_, ?_, ?_⟩
    · rcases hih.1 with h | h
      · rcases hcc.1 with h2 | h2
        · left; rw [hz, h, h2]
        · right; rw [hz, h, h2]; exact List.mem_cons_self d ds
      · right; rw [hz]; exact List.mem_cons_of_mem d h
    · rw [hz]; exact le_trans hih.2.1 hcc.2.1
    · intro u hu
      rcases List.mem_cons.mp hu with h | h
      · subst h; rw [hz]; exact le_trans hih.2.1 hcc.2.2
      · rw [hz]; exact hih.2.2 u h

/-- C9: the composite iterator's category
(`std::common_type` over the component range categories) is a component
category of minimum rank; in particular zipping a random-access range with
a single-pass (input) range yields the input tag, for which the
facade-synthesized random-access-only operations are absent, so using them
is rejected at compile time. -/
theorem zip_category_is_minimum (c : iterator_category)
    (cs : List iterator_category) :
    ((zip_category c cs = c ∨ zip_category c cs ∈ cs) ∧
      category_rank (zip_category c cs) ≤ category_rank c ∧
      ∀ u ∈ cs, category_rank (zip_category c cs) ≤ category_rank u) ∧
    zip_category .random_access_tag [.input_tag] = .input_tag ∧
    has_random_access_ops (zip_category .random_access_tag [.input_tag])
      = false :=
  ⟨zip_category_spec cs c, by decide, by decide⟩

/-- Witness for C9: the concrete tier-propagation instance, read off the
theorem applied at the random-access and input tags. -/
theorem zip_category_is_minimum_witness :
    zip_category .random_access_tag [.input_tag] = .input_tag :=
  (zip_category_is_minimum .random_access_tag [.input_tag]).2.1

end RangeV3
